import Mathlib

/-!
Verification of the ezlatexdoc core: the lexer (src/lex.rs), the directive
decoder and node builder (src/parse.rs), and the processor state machine
(src/process.rs), shallowly embedded over `List Char`.

Parsers in src/lex.rs are nom combinators of type
`&str -> IResult<&str, O>`; we embed them as functions
`List Char → Option (List Char × O)` where `none` is a nom error and
`some (rest, o)` is success with `rest` the unconsumed suffix.  All the
combinators used are from nom's `complete` family, so `Incomplete` never
arises and `nom::combinator::complete` is the identity.  Loops
(`many1` / `fold_many0` / `separated_nonempty_list`) are embedded with an
explicit fuel argument; every loop body consumes at least one character,
and the fuel supplied at each call site (`length + 1`) is enough that the
fuel-exhausted branch is unreachable.
-/

namespace Ezlatexdoc

/-- Rust `char::is_whitespace` (Unicode White_Space), used by `str::trim_start`. -/
def rust_is_whitespace (c : Char) : Bool :=
  c == ' ' || c == '\t' || c == '\n' || c == '\r' ||
  c.toNat == 0x0B || c.toNat == 0x0C || c.toNat == 0x85 || c.toNat == 0xA0 ||
  c.toNat == 0x1680 ||
  (decide (0x2000 ≤ c.toNat) && decide (c.toNat ≤ 0x200A)) ||
  c.toNat == 0x2028 || c.toNat == 0x2029 || c.toNat == 0x202F ||
  c.toNat == 0x205F || c.toNat == 0x3000

/-- Rust `str::trim_start`. -/
def rust_trim_start (t : List Char) : List Char :=
  t.dropWhile rust_is_whitespace

/-- Split on the byte `\n`, as Rust `slice::split(|b| *b == b'\n')` does in the
unindent crate: every separator produces a piece, so a trailing newline yields a
trailing empty piece; a `\r` before the `\n` stays at the end of its piece. -/
def splitOnNl : List Char → List (List Char)
  | [] => [[]]
  | c :: r =>
    if c = '\n' then [] :: splitOnNl r
    else
      match splitOnNl r with
      | [] => [[c]]
      | l :: ls => (c :: l) :: ls

/-- `count_spaces` from the unindent crate (0.1): the number of leading space or
tab characters of a line, or `none` when the line is nothing but spaces/tabs
(such lines are ignored when computing the shared indentation). -/
def count_spaces : List Char → Option Nat
  | [] => none
  | c :: r =>
    if c = ' ' ∨ c = '\t' then (count_spaces r).map (· + 1) else some 0

/-- Rebuild step of `unindent_bytes` from the unindent crate: line `0` is kept
verbatim with no preceding newline; every later line is preceded by a newline
(except line `1` when the input began with a newline, which drops the synthetic
first line) and is stripped of `spaces` leading characters when longer than
`spaces`, and emptied otherwise. -/
def unindent_rebuild (spaces : Nat) (ignoreFirst : Bool) : Nat → List (List Char) → List Char
  | _, [] => []
  | idx, line :: rest =>
    let nl : List Char := if 1 < idx ∨ (idx = 1 ∧ ignoreFirst = false) then ['\n'] else []
    let body : List Char :=
      if idx = 0 then line
      else if spaces < line.length then line.drop spaces
      else []
    nl ++ body ++ unindent_rebuild spaces ignoreFirst (idx + 1) rest

/-- Whether the text starts with a line ending, as tested by
`s.starts_with(b"\n") || s.starts_with(b"\r\n")` in the unindent crate. -/
def starts_with_nl : List Char → Bool
  | '\n' :: _ => true
  | '\r' :: '\n' :: _ => true
  | _ => false

/-- `unindent` from the unindent crate (0.1): compute the minimum indentation of
the non-whitespace-only lines after the first, drop a leading empty first line,
and strip that many leading characters from every line after the first. -/
def unindent (s : List Char) : List Char :=
  let ls := splitOnNl s
  let spaces : Nat :=
    match (ls.drop 1).filterMap count_spaces with
    | [] => 0
    | x :: xs => xs.foldl min x
  unindent_rebuild spaces (starts_with_nl s) 0 ls

/-! ## The TOML directive decoder (src/parse.rs, `Directives`)

`toml::from_str::<Directives>` is an external crate (toml 0.5, implementing
TOML 0.5).  We model the fragment of TOML the directive bodies can use: a
sequence of lines, each either blank, a `#` comment, or
`bare-key = "basic string"`, where the basic string follows TOML's rules: a
character is either in the `basic-unescaped` set or one of the escape
sequences `\b \t \n \f \r \" \\ \uXXXX \UXXXXXXXX` (unicode escapes must
denote scalar values); a literal control character, an unterminated string or
an invalid escape is a TOML error, as are duplicate keys.  Other TOML value
forms (literal, multi-line and non-string values) are outside the modeled
subset and treated as parse errors here.  Serde's derived `Deserialize` for
`Directives` (which has no `deny_unknown_fields` attribute) reads the two
optional string fields `src_output` and `doc_output` and ignores every other
key. -/

/-- A TOML bare-key character: ASCII alphanumerics, `_` and `-`. -/
def bare_key_char (c : Char) : Bool :=
  c.isAlphanum || c == '_' || c == '-'

/-- Horizontal whitespace inside a TOML line. -/
def toml_ws (c : Char) : Bool := c == ' ' || c == '\t'

/-- A character allowed unescaped inside a TOML basic string (TOML 0.5
`basic-unescaped`: `wschar`, `%x21`, `%x23-5B`, `%x5D-7E`, `non-ascii`);
this excludes the quote (0x22), the backslash (0x5C), DEL (0x7F) and all
other control characters. -/
def basic_unescaped (c : Char) : Bool :=
  c.toNat == 0x09 || c.toNat == 0x20 || c.toNat == 0x21 ||
  (decide (0x23 ≤ c.toNat) && decide (c.toNat ≤ 0x5B)) ||
  (decide (0x5D ≤ c.toNat) && decide (c.toNat ≤ 0x7E)) ||
  decide (0x80 ≤ c.toNat)

/-- A hexadecimal digit, as accepted in TOML `\u`/`\U` escapes. -/
def is_hex_digit (c : Char) : Bool :=
  c.isDigit || (decide ('a' ≤ c) && decide (c ≤ 'f')) ||
  (decide ('A' ≤ c) && decide (c ≤ 'F'))

/-- The value of a hexadecimal digit. -/
def hex_val (c : Char) : Nat :=
  if c.isDigit then c.toNat - 48
  else if 'a' ≤ c ∧ c ≤ 'f' then c.toNat - 87
  else if 'A' ≤ c ∧ c ≤ 'F' then c.toNat - 55
  else 0

/-- Read exactly `n` hexadecimal digits, accumulating their value;
`none` when a non-digit or the end of input is hit first. -/
def read_hex (acc : Nat) : Nat → List Char → Option (Nat × List Char)
  | 0, r => some (acc, r)
  | _ + 1, [] => none
  | n + 1, c :: r =>
    if is_hex_digit c then read_hex (acc * 16 + hex_val c) n r else none

/-- Whether a code point is a Unicode scalar value, as TOML requires of
`\u`/`\U` escapes (and as Rust `char` requires). -/
def valid_scalar (n : Nat) : Bool :=
  decide (n < 0xD800) || (decide (0xE000 ≤ n) && decide (n ≤ 0x10FFFF))

/-- Read the remainder of a TOML basic string after its opening quote, with
fuel (each iteration consumes at least one character, so fuel `> i.length`
never runs out): returns the decoded value and the input after the closing
quote.  An unterminated string, a literal control character or an invalid
escape is an error, as in the toml crate's tokenizer. -/
def read_basic_string_loop : Nat → List Char → Option (List Char × List Char)
  | 0, _ => none
  | fuel + 1, i =>
    match i with
    | [] => none
    | c :: r =>
      if c = '"' then some ([], r)
      else if c = '\\' then
        match r with
        | [] => none
        | e :: r2 =>
          let esc : Option (Char × List Char) :=
            if e = 'b' then some ('\x08', r2)
            else if e = 't' then some ('\t', r2)
            else if e = 'n' then some ('\n', r2)
            else if e = 'f' then some ('\x0C', r2)
            else if e = 'r' then some ('\x0D', r2)
            else if e = '"' then some ('"', r2)
            else if e = '\\' then some ('\\', r2)
            else if e = 'u' then
              match read_hex 0 4 r2 with
              | none => none
              | some (n, r3) => if valid_scalar n then some (Char.ofNat n, r3) else none
            else if e = 'U' then
              match read_hex 0 8 r2 with
              | none => none
              | some (n, r3) => if valid_scalar n then some (Char.ofNat n, r3) else none
            else none
          match esc with
          | none => none
          | some (ch, r3) =>
            match read_basic_string_loop fuel r3 with
            | none => none
            | some (v, rest) => some (ch :: v, rest)
      else if basic_unescaped c then
        match read_basic_string_loop fuel r with
        | none => none
        | some (v, rest) => some (c :: v, rest)
      else none

/-- Parse one TOML line.  `none` is a TOML parse error; `some none` is a
blank or comment line; `some (some (k, v))` is a `k = "v"` binding with `v`
the decoded basic string. -/
def parse_toml_line (l : List Char) : Option (Option (List Char × List Char)) :=
  match l.dropWhile toml_ws with
  | [] => some none
  | c :: l1 =>
    if c = '#' then some none
    else
      let key := (c :: l1).takeWhile bare_key_char
      if key = [] then none
      else
        match ((c :: l1).dropWhile bare_key_char).dropWhile toml_ws with
        | '=' :: r =>
          match r.dropWhile toml_ws with
          | '"' :: r2 =>
            match read_basic_string_loop (r2.length + 1) r2 with
            | none => none
            | some (v, r4) => if r4.dropWhile toml_ws = [] then some (some (key, v)) else none
          | _ => none
        | _ => none

/-- Parse every line of a TOML document into key/value pairs. -/
def toml_lines : List (List Char) → Option (List (List Char × List Char))
  | [] => some []
  | l :: ls =>
    match parse_toml_line l with
    | none => none
    | some none => toml_lines ls
    | some (some kv) => (toml_lines ls).map (kv :: ·)

/-- First value bound to a key in an association list. -/
def assoc_lookup (k : List Char) : List (List Char × List Char) → Option (List Char)
  | [] => none
  | (k2, v) :: r => if k2 = k then some v else assoc_lookup k r

/-- The `Directives` record of src/parse.rs: an optional destination name for
each of the two outputs. -/
structure Directives where
  src_output : Option (List Char)
  doc_output : Option (List Char)
deriving DecidableEq, Repr

/-- `toml::from_str::<Directives>`: parse the body as TOML (duplicate keys are
an error) and deserialize, ignoring unknown keys (serde's default, since
`Directives` does not opt into `deny_unknown_fields`). -/
def toml_from_str (t : List Char) : Option Directives :=
  match toml_lines (splitOnNl t) with
  | none => none
  | some kvs =>
    if (kvs.map Prod.fst).Nodup then
      some ⟨assoc_lookup ("src_output".data) kvs, assoc_lookup ("doc_output".data) kvs⟩
    else none

/-! ## The lexer (src/lex.rs) -/

namespace Lex

/-- `CommentKind` from src/lex.rs. -/
inductive CommentKind
  | Directive
  | Documentation
  | Preserved
  | Eol
deriving DecidableEq, Repr

/-- `Comment<String>` from src/lex.rs (we also use it for `Comment<&str>`,
since both are just text plus a kind here). -/
structure Comment where
  text : List Char
  kind : CommentKind
deriving DecidableEq, Repr

/-- `Chunk` from src/lex.rs. -/
inductive Chunk
  | Comment (c : Ezlatexdoc.Lex.Comment)
  | Source (s : List Char)
deriving DecidableEq, Repr

/-- nom `line_ending` (complete): `\n` or `\r\n`; a `\r` not followed by `\n`
is an error. -/
def line_ending : List Char → Option (List Char × List Char)
  | '\n' :: r => some (r, ['\n'])
  | '\r' :: '\n' :: r => some (r, ['\r', '\n'])
  | _ => none

/-- `eof` from src/lex.rs: `not(anychar)` succeeds, consuming nothing, exactly
at the end of input. -/
def eof (i : List Char) : Option (List Char × Unit) :=
  if i = [] then some (i, ()) else none

/-- `line_ending_or_eof` from src/lex.rs. -/
def line_ending_or_eof (i : List Char) : Option (List Char × Unit) :=
  match line_ending i with
  | some (r, _) => some (r, ())
  | none => eof i

/-- One iteration of the `many1` loop inside `non_comment` from src/lex.rs:
`alt((none_of("%\\\r\n"), escaped))` — a single character that is none of
`%`, `\`, `\r`, `\n`, or an `escaped` pair `\\.` where `.` is not a line
ending. -/
def non_comment_step (i : List Char) : Option (List Char × List Char) :=
  match i with
  | [] => none
  | c :: r =>
    if c = '%' ∨ c = '\r' ∨ c = '\n' then none
    else if c = '\\' then
      match r with
      | [] => none
      | d :: r2 => if d = '\r' ∨ d = '\n' then none else some (r2, [c, d])
    else some (r, [c])

/-- The `many0` tail of the `many1` loop inside `non_comment`, with fuel.
Returns the unconsumed rest and the characters consumed (in order).  Each
iteration consumes at least one character, so fuel `> i.length` never runs
out. -/
def non_comment_loop : Nat → List Char → List Char × List Char
  | 0, i => (i, [])
  | fuel + 1, i =>
    match non_comment_step i with
    | none => (i, [])
    | some (r, c) =>
      let p := non_comment_loop fuel r
      (p.1, c ++ p.2)

/-- `non_comment` from src/lex.rs:
`recognize(many1(alt((none_of("%\\\r\n"), escaped))))`. -/
def non_comment (i : List Char) : Option (List Char × List Char) :=
  match non_comment_step i with
  | none => none
  | some (r, c) =>
    let p := non_comment_loop (r.length + 1) r
    some (p.1, c ++ p.2)

/-- The loop of `separated_nonempty_list(line_ending, non_comment)` after its
first element, under `recognize`: alternately a line ending and a non-comment
run, accumulating the consumed text, backtracking to before the separator when
the element after it fails.  Fuel as in `non_comment_loop`. -/
def source_run_loop : Nat → List Char → List Char × List Char
  | 0, i => (i, [])
  | fuel + 1, i =>
    match line_ending i with
    | none => (i, [])
    | some (i1, le) =>
      match non_comment i1 with
      | none => (i, [])
      | some (i2, c) =>
        let p := source_run_loop fuel i2
        (p.1, le ++ (c ++ p.2))

/-- `non_comment_chunk` from src/lex.rs:
`map(recognize(separated_nonempty_list(line_ending, non_comment)), Chunk::Source)`. -/
def non_comment_chunk (i : List Char) : Option (List Char × Chunk) :=
  match non_comment i with
  | none => none
  | some (i1, c) =>
    let p := source_run_loop (i1.length + 1) i1
    some (p.1, Chunk.Source (c ++ p.2))

/-- `directive_tag` from src/lex.rs: the `%%%` marker. -/
def directive_tag : List Char → Option (List Char × CommentKind)
  | c :: d :: e :: r =>
    if c = '%' ∧ d = '%' ∧ e = '%' then some (r, CommentKind.Directive) else none
  | _ => none

/-- `documentation_tag` from src/lex.rs: the `%%` marker. -/
def documentation_tag : List Char → Option (List Char × CommentKind)
  | c :: d :: r =>
    if c = '%' ∧ d = '%' then some (r, CommentKind.Documentation) else none
  | _ => none

/-- `preserved_tag` from src/lex.rs: the `%!` marker. -/
def preserved_tag : List Char → Option (List Char × CommentKind)
  | c :: d :: r =>
    if c = '%' ∧ d = '!' then some (r, CommentKind.Preserved) else none
  | _ => none

/-- `eol_tag` from src/lex.rs: the `%` marker. -/
def eol_tag : List Char → Option (List Char × CommentKind)
  | c :: r => if c = '%' then some (r, CommentKind.Eol) else none
  | _ => none

/-- `only_sol_comment_tag` from src/lex.rs: `alt((directive_tag, documentation_tag))`. -/
def only_sol_comment_tag (i : List Char) : Option (List Char × CommentKind) :=
  match directive_tag i with
  | some x => some x
  | none => documentation_tag i

/-- `inline_comment_tag` from src/lex.rs: `alt((preserved_tag, eol_tag))`. -/
def inline_comment_tag (i : List Char) : Option (List Char × CommentKind) :=
  match preserved_tag i with
  | some x => some x
  | none => eol_tag i

/-- `any_comment_tag` from src/lex.rs: `alt((only_sol_comment_tag, inline_comment_tag))`. -/
def any_comment_tag (i : List Char) : Option (List Char × CommentKind) :=
  match only_sol_comment_tag i with
  | some x => some x
  | none => inline_comment_tag i

/-- nom `not_line_ending` (complete): the run of characters before the first
`\r` or `\n`; an error when that `\r` is not followed by `\n` (including a
lone `\r` at the end of input). -/
def not_line_ending (i : List Char) : Option (List Char × List Char) :=
  let text := i.takeWhile (fun c => !(c == '\r' || c == '\n'))
  match i.dropWhile (fun c => !(c == '\r' || c == '\n')) with
  | '\r' :: '\n' :: r => some ('\r' :: '\n' :: r, text)
  | '\r' :: _ => none
  | rest => some (rest, text)

/-- `inline_comment` from src/lex.rs: an inline tag (preserved or eol) that is
not a start-of-line-only tag, with the rest of the physical line as text. -/
def inline_comment (i : List Char) : Option (List Char × Comment) :=
  match only_sol_comment_tag i with
  | some _ => none
  | none =>
    match inline_comment_tag i with
    | none => none
    | some (i1, kind) =>
      match not_line_ending i1 with
      | none => none
      | some (i2, text) => some (i2, ⟨text, kind⟩)

/-- `inline_comment_chunk` from src/lex.rs: `inline_comment`, with
`Comment::trimmed` (Rust `trim_start`) applied to the text. -/
def inline_comment_chunk (i : List Char) : Option (List Char × Chunk) :=
  match inline_comment i with
  | none => none
  | some (i1, c) => some (i1, Chunk.Comment ⟨rust_trim_start c.text, c.kind⟩)

/-- `any_comment` from src/lex.rs: any comment tag followed by the rest of the
physical line. -/
def any_comment (i : List Char) : Option (List Char × Comment) :=
  match any_comment_tag i with
  | none => none
  | some (i1, kind) =>
    match not_line_ending i1 with
    | none => none
    | some (i2, text) => some (i2, ⟨text, kind⟩)

/-- nom `multispace0`: spaces, tabs, carriage returns and line feeds (note that
it does include line endings). -/
def is_multispace (c : Char) : Bool :=
  c == ' ' || c == '\t' || c == '\r' || c == '\n'

/-- The separator of `any_comment_block`: `pair(line_ending, multispace0)`. -/
def comment_sep (i : List Char) : Option (List Char) :=
  match line_ending i with
  | none => none
  | some (i1, _) => some (i1.dropWhile is_multispace)

/-- The loop of `separated_nonempty_list(pair(line_ending, multispace0),
any_comment)` after its first element, with fuel: alternately a separator and
a comment line, backtracking to before the separator when the comment after it
fails. -/
def any_comment_list_loop : Nat → List Char → List Char × List Comment
  | 0, i => (i, [])
  | fuel + 1, i =>
    match comment_sep i with
    | none => (i, [])
    | some i1 =>
      match any_comment i1 with
      | none => (i, [])
      | some (i2, c) =>
        let p := any_comment_list_loop fuel i2
        (p.1, c :: p.2)

/-- `Display` for `Comment` is `writeln!(f, "{}", self.text)`, so
`Itertools::join("")` over a group concatenates each text followed by a line
feed. -/
def comment_join : List Comment → List Char
  | [] => []
  | c :: r => c.text ++ '\n' :: comment_join r

/-- `Itertools::group_by(|c| c.kind)`: maximal runs of consecutive comments of
the same kind, in order. -/
def group_by_kind : List Comment → List (CommentKind × List Comment)
  | [] => []
  | c :: r =>
    match group_by_kind r with
    | [] => [(c.kind, [c])]
    | (k, g) :: gs =>
      if c.kind = k then (k, c :: g) :: gs else (c.kind, [c]) :: (k, g) :: gs

/-- `collapse_comments` from src/lex.rs: a single comment is `trimmed`
(`trim_start`); two or more are grouped by kind, each group's texts joined
(each line's text followed by a line feed, from `Display`) with a line feed
prepended, and unindented. -/
def collapse_comments (comments : List Comment) : List Comment :=
  match comments with
  | [] => []
  | [c] => [⟨rust_trim_start c.text, c.kind⟩]
  | _ =>
    (group_by_kind comments).map fun g => ⟨unindent ('\n' :: comment_join g.2), g.1⟩

/-- `any_comment_block` from src/lex.rs:
`map(separated_nonempty_list(pair(line_ending, multispace0), any_comment), collapse_comments)`. -/
def any_comment_block (i : List Char) : Option (List Char × List Comment) :=
  match any_comment i with
  | none => none
  | some (i1, c) =>
    let p := any_comment_list_loop (i1.length + 1) i1
    some (p.1, collapse_comments (c :: p.2))

/-- `any_comment_chunk` from src/lex.rs: the block's comments wrapped in
`Chunk::Comment`. -/
def any_comment_chunk (i : List Char) : Option (List Char × List Chunk) :=
  match any_comment_block i with
  | none => none
  | some (i1, cs) => some (i1, cs.map Chunk.Comment)

/-- The second alternative of `parse_document_fragment`: a block of
start-of-line comments terminated by a line ending or the end of input. -/
def sol_comment_fragment (i : List Char) : Option (List Char × List Chunk) :=
  match any_comment_chunk i with
  | none => none
  | some (i1, cs) =>
    match line_ending_or_eof i1 with
    | none => none
    | some (i2, _) => some (i2, cs)

/-- `parse_document_fragment` from src/lex.rs: either a non-comment source run
with an optional trailing inline comment and then a line ending or the end of
input, or (backtracking to the start of the fragment, as nom's `alt` does) a
block of start-of-line comments followed by a line ending or the end of input.
The `Chunks` one-or-many iterator of the Rust code is flattened into a
`List Chunk` in document order (source chunk first, then the optional inline
comment), as the caller's fold does. -/
def parse_document_fragment (i : List Char) : Option (List Char × List Chunk) :=
  match non_comment_chunk i with
  | none => sol_comment_fragment i
  | some (i1, src) =>
    match
      (match inline_comment_chunk i1 with
        | some (i2, c) => (i2, [c])
        | none => (i1, [])) with
    | (i2, opt) =>
      match line_ending_or_eof i2 with
      | some (i3, _) => some (i3, src :: opt)
      | none => sol_comment_fragment i

/-- `parse_document_greedy` from src/lex.rs: `fold_many0(parse_document_fragment, ...)`,
with fuel.  As in nom's `fold_many0`, the loop stops successfully when the
fragment parser fails, and errors when the fragment succeeds without consuming
anything (every fragment that succeeds here consumes at least one character,
so with a suffix result that check is the length test). -/
def parse_document_greedy : Nat → List Char → Option (List Char × List Chunk)
  | 0, i => some (i, [])
  | fuel + 1, i =>
    match parse_document_fragment i with
    | none => some (i, [])
    | some (i1, cs) =>
      if i1.length < i.length then
        match parse_document_greedy fuel i1 with
        | none => none
        | some p => some (p.1, cs ++ p.2)
      else none

/-- `parse_document` from src/lex.rs: `Ok(complete(parse_document_greedy)(input)?.1)`.
`complete` only converts `Incomplete` (which cannot arise here) into an error;
the unconsumed rest `.0` is discarded, not checked to be empty. -/
def parse_document (i : List Char) : Option (List Chunk) :=
  match parse_document_greedy (i.length + 1) i with
  | none => none
  | some p => some p.2

/-- A character that starts no comment, no escape and no line ending, i.e.
one the lexer always treats as plain source text (the `none_of("%\\\r\n")`
class of `non_comment`). -/
def plain_char (c : Char) : Prop :=
  c ≠ '%' ∧ c ≠ '\\' ∧ c ≠ '\r' ∧ c ≠ '\n'

instance plain_char_decidable (c : Char) : Decidable (plain_char c) :=
  inferInstanceAs (Decidable (c ≠ '%' ∧ c ≠ '\\' ∧ c ≠ '\r' ∧ c ≠ '\n'))

end Lex

/-! ## Errors (src/error.rs) and the node builder (src/parse.rs) -/

/-- `Error` from src/error.rs (payloads dropped; only the variant matters for
control flow). -/
inductive Error
  | Lex
  | DirectivesParseToml
  | FileOpen
  | Write
  | Format
  | NoOutput
deriving DecidableEq, Repr

/-- `Node` from src/parse.rs. -/
inductive Node
  | Source (s : List Char)
  | Directives (d : Ezlatexdoc.Directives)
  | Documentation (t : List Char)
  | PreservedComment (t : List Char)
  | Comment
deriving DecidableEq, Repr

/-- Whether a node is a `Directives` node that binds the source destination
(its `src_output` field is present). -/
def binds_src : Node → Bool
  | .Directives d => d.src_output.isSome
  | _ => false

/-- The per-chunk body of the loop in `parse::parse_document`: `Source` chunks
pass through, directive chunks are decoded as TOML (failure is
`Error::DirectivesParseToml`), the other comment kinds map to their node. -/
def chunk_to_node : Lex.Chunk → Except Error Node
  | .Source s => .ok (.Source s)
  | .Comment c =>
    match c.kind with
    | .Directive =>
      match toml_from_str c.text with
      | none => .error .DirectivesParseToml
      | some d => .ok (.Directives d)
    | .Documentation => .ok (.Documentation c.text)
    | .Preserved => .ok (.PreservedComment c.text)
    | .Eol => .ok .Comment

/-- The loop of `parse::parse_document` over the lexed chunks: stop at the
first failing chunk. -/
def chunks_to_nodes : List Lex.Chunk → Except Error (List Node)
  | [] => .ok []
  | c :: r =>
    match chunk_to_node c with
    | .error e => .error e
    | .ok n =>
      match chunks_to_nodes r with
      | .error e => .error e
      | .ok ns => .ok (n :: ns)

namespace Parse

/-- `parse_document` from src/parse.rs: lex (a lex failure surfaces as
`Error::Lex`), then build one node per chunk. -/
def parse_document (input : List Char) : Except Error (List Node) :=
  match Lex.parse_document input with
  | none => .error .Lex
  | some chunks => chunks_to_nodes chunks

end Parse

/-! ## The processor (src/process.rs)

`Process` holds two `String` buffers and two `Option<File>` handles.  We model
an open `File` by its name and the file system by an association list from
names to contents in creation order; `util::open_new` (`create_new(true)`)
fails when the name already exists, and a write through a handle appends to
that file's contents (in-memory writes never fail, so `Error::Write` never
arises here).  The `.expect(...)` calls in `Process::process` are Rust panics,
not `Error` values; an aborted computation is therefore either an `Error`
returned to the caller or a panic with its message. -/

/-- The file system: file names with their contents, in creation order. -/
abbrev FS := List (List Char × List Char)

/-- `util::open_new`: create the named file, failing (`Error::FileOpen`) when
it already exists. -/
def open_new (name : List Char) (fs : FS) : Except Error FS :=
  match assoc_lookup name fs with
  | some _ => .error .FileOpen
  | none => .ok (fs ++ [(name, [])])

/-- Append text to the named file (a `write!` through an open handle). -/
def fs_append (name : List Char) (s : List Char) : FS → FS
  | [] => []
  | (n, c) :: r => if n = name then (n, c ++ s) :: r else (n, c) :: fs_append name s r

/-- How a processing step aborts: with an `Error` value returned to the
caller, or with a Rust panic (from `.expect`) carrying a message. -/
inductive ProcessAbort
  | err (e : Error)
  | panicked (msg : List Char)
deriving DecidableEq, Repr

/-- The message of the `.expect` on `src_output` in `Process::process`. -/
def EXPECT_SRC_MSG : List Char :=
  "A src_output directive must be given before the first source text.".data

/-- The message of the `.expect` on `doc_output` in `Process::process`. -/
def EXPECT_DOC_MSG : List Char :=
  "A doc_output directive must be given before the first documentation text.".data

/-- `Process` from src/process.rs: the two accumulation buffers and the two
currently bound destinations (the name of the open file, or `none`). -/
structure Process where
  src : List Char
  doc : List Char
  src_output : Option (List Char)
  doc_output : Option (List Char)
deriving DecidableEq, Repr

/-- The `Default` instance of `Process`: empty buffers, no destination
bound. -/
def Process.default : Process := ⟨[], [], none, none⟩

/-- The `doc_output` half of the `Node::Directives` arm of `Process::process`. -/
def Process.bind_doc (st : Process) (fs : FS) (d : Directives) :
    Except ProcessAbort (Process × FS) :=
  match d.doc_output with
  | none => .ok (st, fs)
  | some f =>
    match open_new f fs with
    | .error e => .error (.err e)
    | .ok fs1 => .ok ({ st with doc_output := some f }, fs1)

/-- `Process::process` from src/process.rs, one node at a time.  `Source`,
`PreservedComment` and `Comment` write through the `src_output` handle
(`.expect` panics when it is unbound); `Documentation` writes through
`doc_output`; `Directives` opens and rebinds `src_output` first, then
`doc_output`. -/
def Process.process (st : Process) (fs : FS) : Node → Except ProcessAbort (Process × FS)
  | .Source s =>
    match st.src_output with
    | none => .error (.panicked EXPECT_SRC_MSG)
    | some f => .ok (st, fs_append f s fs)
  | .PreservedComment c =>
    match st.src_output with
    | none => .error (.panicked EXPECT_SRC_MSG)
    | some f => .ok (st, fs_append f ('%' :: ' ' :: (c ++ ['\n'])) fs)
  | .Comment =>
    match st.src_output with
    | none => .error (.panicked EXPECT_SRC_MSG)
    | some f => .ok (st, fs_append f ['%', '\n'] fs)
  | .Documentation d =>
    match st.doc_output with
    | none => .error (.panicked EXPECT_DOC_MSG)
    | some f => .ok (st, fs_append f d fs)
  | .Directives d =>
    match d.src_output with
    | none => Process.bind_doc st fs d
    | some f =>
      match open_new f fs with
      | .error e => .error (.err e)
      | .ok fs1 => Process.bind_doc { st with src_output := some f } fs1 d

/-- The loop of `Process::process_document`: process the nodes in order,
stopping at the first abort. -/
def Process.run : Process → FS → List Node → Except ProcessAbort (Process × FS)
  | st, fs, [] => .ok (st, fs)
  | st, fs, n :: r =>
    match Process.process st fs n with
    | .error e => .error e
    | .ok (st1, fs1) => Process.run st1 fs1 r

/-- `Process::process_document` from src/process.rs: parse the input into
nodes (lex and directive-decode failures surface as `Error` values) and
process each node in order. -/
def Process.process_document (st : Process) (fs : FS) (input : List Char) :
    Except ProcessAbort (Process × FS) :=
  match Parse.parse_document input with
  | .error e => .error (.err e)
  | .ok ns => Process.run st fs ns

/-- `Process::finish` from src/process.rs: write the `src` buffer through
`src_output` (`Error::NoOutput` when unbound), then the `doc` buffer through
`doc_output` (`Error::NoOutput` when unbound).  On the error paths the caller
only sees the error value, so the file system is not returned there (in the
Rust code the `src` write has already happened when the second `ok_or`
fails). -/
def Process.finish (st : Process) (fs : FS) : Except ProcessAbort FS :=
  match st.src_output with
  | none => .error (.err .NoOutput)
  | some f =>
    match st.doc_output with
    | none => .error (.err .NoOutput)
    | some g => .ok (fs_append g st.doc (fs_append f st.src fs))

/-! ## Generic list helper lemmas -/

theorem takeWhile_append_all {α : Type} {p : α → Bool} :
    ∀ (l r : List α), (∀ c ∈ l, p c = true) →
      (l ++ r).takeWhile p = l ++ r.takeWhile p := by
  intro l
  induction l with
  | nil => intro r h; simp
  | cons c l ih =>
    intro r h
    have hc := h c (by simp)
    simp only [List.cons_append, List.takeWhile_cons, hc, if_true]
    rw [ih r (fun x hx => h x (by simp [hx]))]

theorem dropWhile_append_all {α : Type} {p : α → Bool} :
    ∀ (l r : List α), (∀ c ∈ l, p c = true) →
      (l ++ r).dropWhile p = r.dropWhile p := by
  intro l
  induction l with
  | nil => intro r h; simp
  | cons c l ih =>
    intro r h
    have hc := h c (by simp)
    simp only [List.cons_append, List.dropWhile_cons, hc, if_true]
    exact ih r (fun x hx => h x (by simp [hx]))

theorem takeWhile_all {α : Type} {p : α → Bool} (l : List α)
    (h : ∀ c ∈ l, p c = true) : l.takeWhile p = l := by
  have h2 := takeWhile_append_all l ([] : List α) h
  simpa using h2

theorem dropWhile_all {α : Type} {p : α → Bool} (l : List α)
    (h : ∀ c ∈ l, p c = true) : l.dropWhile p = [] := by
  have h2 := dropWhile_append_all l ([] : List α) h
  simpa using h2

theorem splitOnNl_no_nl (l : List Char) (h : ∀ c ∈ l, c ≠ '\n') : splitOnNl l = [l] := by
  induction l with
  | nil => rfl
  | cons c r ih =>
    have hc := h c (by simp)
    simp only [splitOnNl, if_neg hc, ih (fun x hx => h x (by simp [hx]))]

theorem bare_key_char_not_nl {c : Char} (h : bare_key_char c = true) : c ≠ '\n' := by
  intro hc
  subst hc
  exact absurd h (by decide)

theorem bare_key_char_not_hash {c : Char} (h : bare_key_char c = true) : c ≠ '#' := by
  intro hc
  subst hc
  exact absurd h (by decide)

theorem bare_key_char_not_ws {c : Char} (h : bare_key_char c = true) : toml_ws c = false := by
  cases hw : toml_ws c with
  | false => rfl
  | true =>
    have : c = ' ' ∨ c = '\t' := by
      simpa [toml_ws] using hw
    rcases this with hc | hc <;> rw [hc] at h <;> exact absurd h (by decide)

theorem bare_key_char_space : bare_key_char ' ' = false := by decide

theorem bare_key_char_quote : bare_key_char '"' = false := by decide

theorem basic_unescaped_ne_quote {c : Char} (h : basic_unescaped c = true) : c ≠ '"' := by
  intro hc
  subst hc
  exact absurd h (by decide)

theorem basic_unescaped_ne_backslash {c : Char} (h : basic_unescaped c = true) : c ≠ '\\' := by
  intro hc
  subst hc
  exact absurd h (by decide)

theorem basic_unescaped_ne_nl {c : Char} (h : basic_unescaped c = true) : c ≠ '\n' := by
  intro hc
  subst hc
  exact absurd h (by decide)

theorem read_basic_string_plain :
    ∀ (v r : List Char), (∀ c ∈ v, basic_unescaped c = true) →
      read_basic_string_loop ((v ++ '"' :: r).length + 1) (v ++ '"' :: r) = some (v, r) := by
  intro v
  induction v with
  | nil =>
    intro r h
    rfl
  | cons c v1 ih =>
    intro r h
    have hc := h c (by simp)
    show read_basic_string_loop (((v1 ++ '"' :: r).length + 1) + 1) (c :: (v1 ++ '"' :: r)) = _
    rw [read_basic_string_loop.eq_def]
    dsimp only
    rw [if_neg (basic_unescaped_ne_quote hc), if_neg (basic_unescaped_ne_backslash hc),
      if_pos hc]
    rw [ih r (fun x hx => h x (by simp [hx]))]

theorem parse_toml_line_kv (k v : List Char)
    (hk0 : k ≠ []) (hk : ∀ c ∈ k, bare_key_char c = true)
    (hv : ∀ c ∈ v, basic_unescaped c = true) :
    parse_toml_line (k ++ ' ' :: '=' :: ' ' :: '"' :: (v ++ ['"'])) = some (some (k, v)) := by
  cases k with
  | nil => exact absurd rfl hk0
  | cons c0 k1 =>
    have hc0 := hk c0 (by simp)
    have hd : ((c0 :: k1) ++ ' ' :: '=' :: ' ' :: '"' :: (v ++ ['"'])).dropWhile toml_ws =
        c0 :: (k1 ++ ' ' :: '=' :: ' ' :: '"' :: (v ++ ['"'])) := by
      simp [List.dropWhile_cons, bare_key_char_not_ws hc0]
    rw [parse_toml_line, hd]
    dsimp only
    rw [if_neg (bare_key_char_not_hash hc0)]
    have hkey : (c0 :: (k1 ++ ' ' :: '=' :: ' ' :: '"' :: (v ++ ['"']))).takeWhile bare_key_char =
        c0 :: k1 := by
      have h2 := takeWhile_append_all (c0 :: k1) (' ' :: '=' :: ' ' :: '"' :: (v ++ ['"'])) hk
      simp only [List.cons_append] at h2
      rw [h2]
      simp [List.takeWhile_cons, bare_key_char_space]
    rw [hkey]
    rw [if_neg (by simp)]
    have hdropk : (c0 :: (k1 ++ ' ' :: '=' :: ' ' :: '"' :: (v ++ ['"']))).dropWhile bare_key_char =
        ' ' :: '=' :: ' ' :: '"' :: (v ++ ['"']) := by
      have h2 := dropWhile_append_all (c0 :: k1) (' ' :: '=' :: ' ' :: '"' :: (v ++ ['"'])) hk
      simp only [List.cons_append] at h2
      rw [h2]
      simp [List.dropWhile_cons, bare_key_char_space]
    rw [hdropk]
    have hws1 : (' ' :: '=' :: ' ' :: '"' :: (v ++ ['"'])).dropWhile toml_ws =
        '=' :: ' ' :: '"' :: (v ++ ['"']) := by
      simp [List.dropWhile_cons, toml_ws]
    have hws2 : (' ' :: '"' :: (v ++ ['"'])).dropWhile toml_ws = '"' :: (v ++ ['"']) := by
      simp [List.dropWhile_cons, toml_ws]
    have hread : read_basic_string_loop (v.length + 1 + 1) (v ++ ['"']) = some (v, []) := by
      have h2 := read_basic_string_plain v [] hv
      simpa using h2
    simp [hws1, hws2, hread, toml_ws]

theorem toml_from_str_unknown_key (k v : List Char)
    (hk0 : k ≠ []) (hk : ∀ c ∈ k, bare_key_char c = true)
    (hksrc : k ≠ "src_output".data) (hkdoc : k ≠ "doc_output".data)
    (hv : ∀ c ∈ v, basic_unescaped c = true) :
    toml_from_str (k ++ ' ' :: '=' :: ' ' :: '"' :: (v ++ ['"'])) =
      some ⟨none, none⟩ := by
  have hnl : ∀ c ∈ k ++ ' ' :: '=' :: ' ' :: '"' :: (v ++ ['"']), c ≠ '\n' := by
    intro c hc
    simp only [List.mem_append, List.mem_cons, List.mem_singleton] at hc
    rcases hc with hc | hc | hc | hc | hc | hc | hc
    · exact bare_key_char_not_nl (hk c hc)
    · subst hc; decide
    · subst hc; decide
    · subst hc; decide
    · subst hc; decide
    · exact basic_unescaped_ne_nl (hv c hc)
    · rcases hc with hc | hc
      · subst hc; decide
      · simp at hc
  rw [toml_from_str, splitOnNl_no_nl _ hnl, toml_lines, parse_toml_line_kv k v hk0 hk hv]
  simp [toml_lines, assoc_lookup, hksrc, hkdoc]

/-! ## Helper lemmas about the lexer's loops -/

namespace Lex

theorem non_comment_step_shrinks {i r c} (h : non_comment_step i = some (r, c)) :
    r.length < i.length := by
  cases i with
  | nil => simp [non_comment_step] at h
  | cons a t =>
    simp only [non_comment_step] at h
    split at h
    · exact absurd h (by simp)
    · split at h
      · split at h
        · exact Option.noConfusion h
        · split at h
          · exact absurd h (by simp)
          · simp only [Option.some.injEq, Prod.mk.injEq] at h
            obtain ⟨h1, h2⟩ := h
            subst h1
            simp only [List.length_cons]
            omega
      · simp only [Option.some.injEq, Prod.mk.injEq] at h
        obtain ⟨h1, h2⟩ := h
        subst h1
        simp only [List.length_cons]
        omega

theorem non_comment_step_consumed_ne_nil {i r c} (h : non_comment_step i = some (r, c)) :
    c ≠ [] := by
  cases i with
  | nil => simp [non_comment_step] at h
  | cons a t =>
    simp only [non_comment_step] at h
    split at h
    · exact absurd h (by simp)
    · split at h
      · split at h
        · exact Option.noConfusion h
        · split at h
          · exact absurd h (by simp)
          · simp only [Option.some.injEq, Prod.mk.injEq] at h
            simp [← h.2]
      · simp only [Option.some.injEq, Prod.mk.injEq] at h
        simp [← h.2]

theorem non_comment_loop_rest_length : ∀ fuel i, (non_comment_loop fuel i).1.length ≤ i.length := by
  intro fuel
  induction fuel with
  | zero => intro i; simp [non_comment_loop]
  | succ n ih =>
    intro i
    simp only [non_comment_loop]
    split
    · simp
    · rename_i r c h
      exact le_trans (ih r) (le_of_lt (non_comment_step_shrinks h))

theorem non_comment_shrinks {i r c} (h : non_comment i = some (r, c)) :
    r.length < i.length := by
  simp only [non_comment] at h
  split at h
  · exact absurd h (by simp)
  · rename_i r0 c0 h0
    simp only [Option.some.injEq, Prod.mk.injEq] at h
    calc r.length = (non_comment_loop (r0.length + 1) r0).1.length := by rw [h.1]
    _ ≤ r0.length := non_comment_loop_rest_length _ _
    _ < i.length := non_comment_step_shrinks h0

theorem non_comment_consumed_ne_nil {i r c} (h : non_comment i = some (r, c)) :
    c ≠ [] := by
  simp only [non_comment] at h
  split at h
  · exact absurd h (by simp)
  · rename_i r0 c0 h0
    simp only [Option.some.injEq, Prod.mk.injEq] at h
    have := non_comment_step_consumed_ne_nil h0
    rw [← h.2]
    simp [this]

theorem non_comment_loop_nil (f : Nat) : non_comment_loop f [] = ([], []) := by
  cases f <;> rfl

theorem source_run_loop_nil (f : Nat) : source_run_loop f [] = ([], []) := by
  cases f <;> rfl

theorem any_comment_list_loop_nil (f : Nat) : any_comment_list_loop f [] = ([], []) := by
  cases f <;> rfl

theorem parse_document_greedy_nil (f : Nat) : parse_document_greedy f [] = some ([], []) := by
  cases f <;> rfl

theorem non_comment_loop_fuel :
    ∀ (f g : Nat) (i : List Char), i.length < f → i.length < g →
      non_comment_loop f i = non_comment_loop g i := by
  intro f
  induction f with
  | zero => intro g i hf; omega
  | succ n ih =>
    intro g i hf hg
    cases g with
    | zero => omega
    | succ m =>
      simp only [non_comment_loop]
      cases hstep : non_comment_step i with
      | none => rfl
      | some p =>
        obtain ⟨r, c⟩ := p
        have hr := non_comment_step_shrinks hstep
        dsimp only
        rw [ih m r (by omega) (by omega)]

theorem non_comment_step_plain {c : Char} (h : plain_char c) (t : List Char) :
    non_comment_step (c :: t) = some (t, [c]) := by
  obtain ⟨h1, h2, h3, h4⟩ := h
  simp [non_comment_step, h1, h2, h3, h4]

theorem non_comment_step_esc (d : Char) (hd : d ≠ '\r' ∧ d ≠ '\n') (t : List Char) :
    non_comment_step ('\\' :: d :: t) = some (t, ['\\', d]) := by
  simp [non_comment_step, hd.1, hd.2]

theorem non_comment_loop_plain :
    ∀ (l r : List Char), (∀ c ∈ l, plain_char c) →
      non_comment_loop ((l ++ r).length + 1) (l ++ r) =
        ((non_comment_loop (r.length + 1) r).1, l ++ (non_comment_loop (r.length + 1) r).2) := by
  intro l
  induction l with
  | nil => intro r h; simp
  | cons c l ih =>
    intro r h
    have hc : plain_char c := h c (by simp)
    have hl : ∀ x ∈ l, plain_char x := fun x hx => h x (by simp [hx])
    show non_comment_loop (((l ++ r).length + 1) + 1) (c :: (l ++ r)) = _
    rw [non_comment_loop, non_comment_step_plain hc]
    dsimp only
    rw [ih r hl]
    simp

theorem non_comment_loop_plain_all (l : List Char) (h : ∀ c ∈ l, plain_char c) :
    non_comment_loop (l.length + 1) l = ([], l) := by
  have h2 := non_comment_loop_plain l [] h
  simp only [List.append_nil] at h2
  rw [h2, non_comment_loop_nil]
  simp

theorem non_comment_loop_esc (post : List Char) (hpost : ∀ c ∈ post, plain_char c) :
    non_comment_loop (('\\' :: '%' :: post).length + 1) ('\\' :: '%' :: post) =
      ([], '\\' :: '%' :: post) := by
  show non_comment_loop (((post.length + 1) + 1) + 1) ('\\' :: '%' :: post) = _
  rw [non_comment_loop, non_comment_step_esc '%' (by decide) post]
  dsimp only
  rw [non_comment_loop_fuel ((post.length + 1) + 1) (post.length + 1) post (by omega) (by omega),
    non_comment_loop_plain_all post hpost]
  simp

theorem non_comment_plain_esc (pre post : List Char)
    (hpre : ∀ c ∈ pre, plain_char c) (hpost : ∀ c ∈ post, plain_char c) :
    non_comment (pre ++ '\\' :: '%' :: post) = some ([], pre ++ '\\' :: '%' :: post) := by
  cases pre with
  | nil =>
    show non_comment ('\\' :: '%' :: post) = _
    rw [non_comment, non_comment_step_esc '%' (by decide) post]
    dsimp only
    rw [non_comment_loop_plain_all post hpost]
    simp
  | cons a pre1 =>
    have ha : plain_char a := hpre a (by simp)
    have hp : ∀ x ∈ pre1, plain_char x := fun x hx => hpre x (by simp [hx])
    show non_comment (a :: (pre1 ++ '\\' :: '%' :: post)) = _
    rw [non_comment, non_comment_step_plain ha]
    dsimp only
    rw [non_comment_loop_plain pre1 ('\\' :: '%' :: post) hp, non_comment_loop_esc post hpost]
    simp

theorem fragment_plain_esc (pre post : List Char)
    (hpre : ∀ c ∈ pre, plain_char c) (hpost : ∀ c ∈ post, plain_char c) :
    parse_document_fragment (pre ++ '\\' :: '%' :: post) =
      some ([], [Chunk.Source (pre ++ '\\' :: '%' :: post)]) := by
  have hch : non_comment_chunk (pre ++ '\\' :: '%' :: post) =
      some ([], Chunk.Source (pre ++ '\\' :: '%' :: post)) := by
    rw [non_comment_chunk, non_comment_plain_esc pre post hpre hpost]
    dsimp only
    rw [source_run_loop_nil]
    simp
  rw [parse_document_fragment, hch]
  rfl

theorem any_comment_chunk_shape {i j : List Char} {cs : List Chunk}
    (h : any_comment_chunk i = some (j, cs)) :
    ∃ cms : List Comment, cs = cms.map Chunk.Comment := by
  cases hb : any_comment_block i with
  | none =>
    rw [any_comment_chunk, hb] at h
    exact Option.noConfusion h
  | some p =>
    obtain ⟨i1, cs0⟩ := p
    rw [any_comment_chunk, hb] at h
    simp only [Option.some.injEq, Prod.mk.injEq] at h
    exact ⟨cs0, h.2.symm⟩

theorem sol_no_source {i j : List Char} {cs : List Chunk}
    (h : sol_comment_fragment i = some (j, cs)) {s : List Char}
    (hs : Chunk.Source s ∈ cs) : False := by
  cases hac : any_comment_chunk i with
  | none =>
    rw [sol_comment_fragment, hac] at h
    exact Option.noConfusion h
  | some p =>
    obtain ⟨i1, cs0⟩ := p
    rw [sol_comment_fragment, hac] at h
    dsimp only at h
    cases hle : line_ending_or_eof i1 with
    | none =>
      rw [hle] at h
      exact Option.noConfusion h
    | some q =>
      obtain ⟨i2, u⟩ := q
      rw [hle] at h
      simp only [Option.some.injEq, Prod.mk.injEq] at h
      obtain ⟨cms, hcms⟩ := any_comment_chunk_shape hac
      rw [← h.2, hcms] at hs
      simp only [List.mem_map] at hs
      obtain ⟨a, _, ha⟩ := hs
      exact Chunk.noConfusion ha

theorem non_comment_chunk_shape {i j : List Char} {ch : Chunk}
    (h : non_comment_chunk i = some (j, ch)) :
    ∃ s, ch = Chunk.Source s ∧ s ≠ [] := by
  cases hnc : non_comment i with
  | none =>
    rw [non_comment_chunk, hnc] at h
    exact Option.noConfusion h
  | some p =>
    obtain ⟨i1, c⟩ := p
    rw [non_comment_chunk, hnc] at h
    dsimp only at h
    simp only [Option.some.injEq, Prod.mk.injEq] at h
    refine ⟨c ++ (source_run_loop (i1.length + 1) i1).2, h.2.symm, ?_⟩
    have hc := non_comment_consumed_ne_nil hnc
    simp [hc]

theorem inline_comment_chunk_shape {i j : List Char} {ch : Chunk}
    (h : inline_comment_chunk i = some (j, ch)) :
    ∃ cm, ch = Chunk.Comment cm := by
  cases hin : inline_comment i with
  | none =>
    rw [inline_comment_chunk, hin] at h
    exact Option.noConfusion h
  | some p =>
    obtain ⟨i1, cm⟩ := p
    rw [inline_comment_chunk, hin] at h
    simp only [Option.some.injEq, Prod.mk.injEq] at h
    exact ⟨_, h.2.symm⟩

theorem fragment_sources_ne_nil {i j : List Char} {cs : List Chunk}
    (h : parse_document_fragment i = some (j, cs)) :
    ∀ s, Chunk.Source s ∈ cs → s ≠ [] := by
  intro s hs
  cases hnc : non_comment_chunk i with
  | none =>
    rw [parse_document_fragment, hnc] at h
    exact ((sol_no_source h) hs).elim
  | some p =>
    obtain ⟨j1, src⟩ := p
    obtain ⟨s0, hsrc, hs0⟩ := non_comment_chunk_shape hnc
    rw [parse_document_fragment, hnc] at h
    dsimp only at h
    cases hic : inline_comment_chunk j1 with
    | none =>
      rw [hic] at h
      dsimp only at h
      cases hle : line_ending_or_eof j1 with
      | none =>
        rw [hle] at h
        exact ((sol_no_source h) hs).elim
      | some q =>
        obtain ⟨i3, u⟩ := q
        rw [hle] at h
        simp only [Option.some.injEq, Prod.mk.injEq] at h
        rw [← h.2, hsrc] at hs
        simp only [List.mem_singleton, Chunk.Source.injEq] at hs
        rw [hs]
        exact hs0
    | some pq =>
      obtain ⟨i2, ch⟩ := pq
      rw [hic] at h
      dsimp only at h
      cases hle : line_ending_or_eof i2 with
      | none =>
        rw [hle] at h
        exact ((sol_no_source h) hs).elim
      | some q =>
        obtain ⟨i3, u⟩ := q
        rw [hle] at h
        simp only [Option.some.injEq, Prod.mk.injEq] at h
        rw [← h.2, hsrc] at hs
        rcases List.mem_cons.mp hs with hm | hm
        · simp only [Chunk.Source.injEq] at hm
          rw [hm]
          exact hs0
        · obtain ⟨cm, hcm⟩ := inline_comment_chunk_shape hic
          rw [hcm] at hm
          simp only [List.mem_singleton] at hm
          exact Chunk.noConfusion hm

theorem greedy_sources_ne_nil :
    ∀ (fuel : Nat) (i j : List Char) (cs : List Chunk),
      parse_document_greedy fuel i = some (j, cs) →
      ∀ s, Chunk.Source s ∈ cs → s ≠ [] := by
  intro fuel
  induction fuel with
  | zero =>
    intro i j cs h s hs
    simp only [parse_document_greedy, Option.some.injEq, Prod.mk.injEq] at h
    rw [← h.2] at hs
    simp at hs
  | succ n ih =>
    intro i j cs h s hs
    cases hfr : parse_document_fragment i with
    | none =>
      rw [parse_document_greedy, hfr] at h
      simp only [Option.some.injEq, Prod.mk.injEq] at h
      rw [← h.2] at hs
      simp at hs
    | some p =>
      obtain ⟨i1, cs1⟩ := p
      rw [parse_document_greedy, hfr] at h
      dsimp only at h
      by_cases hlt : i1.length < i.length
      · rw [if_pos hlt] at h
        cases hg : parse_document_greedy n i1 with
        | none =>
          rw [hg] at h
          exact Option.noConfusion h
        | some q =>
          rw [hg] at h
          dsimp only at h
          simp only [Option.some.injEq, Prod.mk.injEq] at h
          rw [← h.2] at hs
          rcases List.mem_append.mp hs with hm | hm
          · exact fragment_sources_ne_nil hfr s hm
          · exact ih i1 q.1 q.2 (by rw [hg]) s hm
      · rw [if_neg hlt] at h
        exact Option.noConfusion h

theorem any_comment_tag_doc (w : List Char) (hw : w.head? ≠ some '%') :
    any_comment_tag ('%' :: '%' :: w) = some (w, CommentKind.Documentation) := by
  cases w with
  | nil => rfl
  | cons c w1 =>
    have hc : c ≠ '%' := by
      intro h
      rw [h] at hw
      exact hw rfl
    simp [any_comment_tag, only_sol_comment_tag, directive_tag, documentation_tag, hc]

theorem not_line_ending_mid (w rest : List Char) (h : ∀ c ∈ w, c ≠ '\r' ∧ c ≠ '\n') :
    not_line_ending (w ++ '\n' :: rest) = some ('\n' :: rest, w) := by
  have hp : ∀ c ∈ w, (!(c == '\r' || c == '\n')) = true := by
    intro c hc
    simp [(h c hc).1, (h c hc).2]
  rw [not_line_ending]
  rw [takeWhile_append_all w ('\n' :: rest) hp, dropWhile_append_all w ('\n' :: rest) hp]
  simp

theorem not_line_ending_end (w : List Char) (h : ∀ c ∈ w, c ≠ '\r' ∧ c ≠ '\n') :
    not_line_ending w = some ([], w) := by
  have hp : ∀ c ∈ w, (!(c == '\r' || c == '\n')) = true := by
    intro c hc
    simp [(h c hc).1, (h c hc).2]
  rw [not_line_ending]
  rw [takeWhile_all w hp, dropWhile_all w hp]

theorem any_comment_doc_mid (t1 rest : List Char)
    (h1 : ∀ c ∈ t1, c ≠ '\r' ∧ c ≠ '\n') (h3 : t1.head? ≠ some '%') :
    any_comment ('%' :: '%' :: (t1 ++ '\n' :: rest)) =
      some ('\n' :: rest, ⟨t1, CommentKind.Documentation⟩) := by
  have hw : (t1 ++ '\n' :: rest).head? ≠ some '%' := by
    cases t1 with
    | nil => simp
    | cons c t => simpa using h3
  rw [any_comment, any_comment_tag_doc _ hw]
  dsimp only
  rw [not_line_ending_mid t1 rest h1]

theorem any_comment_doc_end (t2 : List Char)
    (h2 : ∀ c ∈ t2, c ≠ '\r' ∧ c ≠ '\n') (h4 : t2.head? ≠ some '%') :
    any_comment ('%' :: '%' :: t2) = some ([], ⟨t2, CommentKind.Documentation⟩) := by
  rw [any_comment, any_comment_tag_doc _ h4]
  dsimp only
  rw [not_line_ending_end t2 h2]

theorem comment_sep_two_nl (t2 : List Char) :
    comment_sep ('\n' :: '\n' :: '%' :: '%' :: t2) = some ('%' :: '%' :: t2) := by
  rw [comment_sep]
  simp [line_ending, List.dropWhile_cons, is_multispace]

theorem any_comment_block_two_doc (t1 t2 : List Char)
    (h1 : ∀ c ∈ t1, c ≠ '\r' ∧ c ≠ '\n') (h2 : ∀ c ∈ t2, c ≠ '\r' ∧ c ≠ '\n')
    (h3 : t1.head? ≠ some '%') (h4 : t2.head? ≠ some '%') :
    any_comment_block ('%' :: '%' :: (t1 ++ '\n' :: '\n' :: '%' :: '%' :: t2)) =
      some ([], collapse_comments
        [⟨t1, CommentKind.Documentation⟩, ⟨t2, CommentKind.Documentation⟩]) := by
  rw [any_comment_block, any_comment_doc_mid t1 ('\n' :: '%' :: '%' :: t2) h1 h3]
  dsimp only
  rw [any_comment_list_loop, comment_sep_two_nl t2]
  dsimp only
  rw [any_comment_doc_end t2 h2 h4]
  dsimp only
  rw [any_comment_list_loop_nil]

theorem fragment_two_doc (t1 t2 : List Char)
    (h1 : ∀ c ∈ t1, c ≠ '\r' ∧ c ≠ '\n') (h2 : ∀ c ∈ t2, c ≠ '\r' ∧ c ≠ '\n')
    (h3 : t1.head? ≠ some '%') (h4 : t2.head? ≠ some '%') :
    parse_document_fragment ('%' :: '%' :: (t1 ++ '\n' :: '\n' :: '%' :: '%' :: t2)) =
      some ([], (collapse_comments
        [⟨t1, CommentKind.Documentation⟩, ⟨t2, CommentKind.Documentation⟩]).map Chunk.Comment) := by
  have hnc : non_comment_chunk ('%' :: '%' :: (t1 ++ '\n' :: '\n' :: '%' :: '%' :: t2)) = none := rfl
  rw [parse_document_fragment, hnc, sol_comment_fragment, any_comment_chunk,
    any_comment_block_two_doc t1 t2 h1 h2 h3 h4]
  rfl

end Lex

/-! ## Helper lemmas about the processor -/

theorem process_ok_preserves_unbound_src {st : Process} {fs : FS} {n : Node}
    {st1 : Process} {fs1 : FS}
    (h : Process.process st fs n = .ok (st1, fs1)) (hsrc : st.src_output = none)
    (hn : binds_src n = false) : st1.src_output = none := by
  cases n with
  | Source s =>
    simp only [Process.process, hsrc] at h
    exact Except.noConfusion h
  | PreservedComment c =>
    simp only [Process.process, hsrc] at h
    exact Except.noConfusion h
  | Comment =>
    simp only [Process.process, hsrc] at h
    exact Except.noConfusion h
  | Documentation d =>
    simp only [Process.process] at h
    cases hdoc : st.doc_output with
    | none =>
      rw [hdoc] at h
      exact Except.noConfusion h
    | some f =>
      rw [hdoc] at h
      simp only [Except.ok.injEq, Prod.mk.injEq] at h
      rw [← h.1]
      exact hsrc
  | Directives d =>
    cases hds : d.src_output with
    | some f =>
      rw [binds_src, hds] at hn
      simp at hn
    | none =>
    simp only [Process.process, hds] at h
    cases hdd : d.doc_output with
    | none =>
      rw [Process.bind_doc, hdd] at h
      simp only [Except.ok.injEq, Prod.mk.injEq] at h
      rw [← h.1]
      exact hsrc
    | some f =>
      rw [Process.bind_doc, hdd] at h
      dsimp only at h
      cases hon : open_new f fs with
      | error e =>
        rw [hon] at h
        exact Except.noConfusion h
      | ok fs2 =>
        rw [hon] at h
        simp only [Except.ok.injEq, Prod.mk.injEq] at h
        rw [← h.1]
        exact hsrc

/-! ## Claim theorems -/

/-- C1: the claim states that lexing either returns chunks spanning the whole
input or fails with a lex error identifying the unconsumed remainder, never
succeeding while silently dropping input.  In fact `parse_document` wraps the
greedy fold in `complete` (which does not check that the rest is empty) and
discards the unconsumed rest, so on the nonempty input `"\\"` (an isolated
backslash, the spec's own example of malformed input) it returns success with
an empty chunk list: the whole input is silently dropped and no error is
reported. -/
theorem lex_silent_truncation_on_lone_backslash :
    Lex.parse_document "\\".data = some [] ∧ "\\".data ≠ [] := by
  exact ⟨rfl, by decide⟩

/-- C4: the end-to-end scenario.  Processing the four-line document from a
fresh processor and an empty file system succeeds; `out.tex` holds exactly
`Hello \%world` directly followed by the synthesized comment line `%` plus a
line feed, and `out.doc` is created empty; `finish` then succeeds without
changing the files (both buffers are empty, all writes having gone directly
through the handles). -/
theorem end_to_end_scenario :
    Process.process_document Process.default []
        ("%%% src_output = \"out.tex\"\n%%% doc_output = \"out.doc\"\nHello \\%world\n% a remark\n".data) =
      .ok (⟨[], [], some "out.tex".data, some "out.doc".data⟩,
           [("out.tex".data, "Hello \\%world%\n".data), ("out.doc".data, [])]) ∧
    Process.finish ⟨[], [], some "out.tex".data, some "out.doc".data⟩
        [("out.tex".data, "Hello \\%world%\n".data), ("out.doc".data, [])] =
      .ok [("out.tex".data, "Hello \\%world%\n".data), ("out.doc".data, [])] := by
  exact ⟨rfl, rfl⟩

/-- C5: the claim states that for input free of comment tags the pipeline
reproduces the input up to the trailing line ending, interior line endings and
blank lines included.  In fact the lexer cannot consume a blank line: on
`"a\n\nb"` (which contains no `%` at all) it stops after the first line and
the `complete`-wrapped fold silently discards `"\nb"`, so the bound source
destination receives only `"a"`, and the blank line and everything after it
are lost. -/
theorem pipeline_drops_blank_line_content :
    Lex.parse_document "a\n\nb".data = some [Lex.Chunk.Source "a".data] ∧
    ("a\n\nb".data.all fun c => c != '%') = true ∧
    Process.process_document ⟨[], [], some "o".data, some "d".data⟩
        [("o".data, []), ("d".data, [])] "a\n\nb".data =
      .ok (⟨[], [], some "o".data, some "d".data⟩,
           [("o".data, "a".data), ("d".data, [])]) := by
  exact ⟨rfl, rfl, rfl⟩

/-- C7: on two consecutive `%%%`-tagged lines the collapsed directive node's
text is the two line bodies joined by a line feed, common indentation
stripped, but with an extra trailing line feed appended (each line's `Display`
is `writeln!`, so the join adds a final newline that `unindent` keeps).  The
repository's own `parse_directives` test expects the text without that
trailing line feed. -/
theorem collapse_adds_trailing_line_ending :
    Lex.parse_document "%%% directives\n%%% directives\n".data =
      some [Lex.Chunk.Comment ⟨"directives\ndirectives\n".data, Lex.CommentKind.Directive⟩] ∧
    "directives\ndirectives\n".data ≠ "directives\ndirectives".data := by
  exact ⟨rfl, by decide⟩

/-- C9: a backslash followed by one non-line-ending character is an atomic
escaped unit and never begins a comment: every single-line input made of
plain characters around an escaped percent lexes to exactly one `Source`
chunk containing the literal backslash and percent, with no comment chunk. -/
theorem escaped_percent_single_source_chunk (pre post : List Char)
    (hpre : ∀ c ∈ pre, Lex.plain_char c) (hpost : ∀ c ∈ post, Lex.plain_char c) :
    Lex.parse_document (pre ++ '\\' :: '%' :: post) =
      some [Lex.Chunk.Source (pre ++ '\\' :: '%' :: post)] := by
  have hfrag := Lex.fragment_plain_esc pre post hpre hpost
  rw [Lex.parse_document, Lex.parse_document_greedy, hfrag]
  dsimp only
  rw [if_pos (by simp), Lex.parse_document_greedy_nil]
  simp

/-- Witness for C9 at the spec's own example `"100\% done"`. -/
theorem escaped_percent_single_source_chunk_witness :
    Lex.parse_document "100\\% done".data = some [Lex.Chunk.Source "100\\% done".data] :=
  escaped_percent_single_source_chunk "100".data " done".data (by decide) (by decide)

/-- C10: every `Source` chunk of a successful lex has nonempty text: a source
run starts with `many1`, which consumes at least one character. -/
theorem source_chunks_nonempty (input : List Char) (chunks : List Lex.Chunk)
    (h : Lex.parse_document input = some chunks) :
    ∀ s, Lex.Chunk.Source s ∈ chunks → s ≠ [] := by
  intro s hs
  cases hg : Lex.parse_document_greedy (input.length + 1) input with
  | none =>
    rw [Lex.parse_document, hg] at h
    exact Option.noConfusion h
  | some p =>
    rw [Lex.parse_document, hg] at h
    dsimp only at h
    simp only [Option.some.injEq] at h
    refine Lex.greedy_sources_ne_nil (input.length + 1) input p.1 p.2 (by rw [hg]) s ?_
    rw [h]
    exact hs

/-- Witness for C10: the lex of `"a"` yields the `Source` chunk `['a']`,
which is nonempty. -/
theorem source_chunks_nonempty_witness : (['a'] : List Char) ≠ [] :=
  source_chunks_nonempty "a".data [Lex.Chunk.Source ['a']] rfl ['a'] (by simp)


/-- C2 counterexample: the claim states that a document with plain source text
and no `src_output`-binding directive fails processing by returning the
unbound-destination error value.  In fact on the one-line document `"x"`
processing aborts with the `.expect` panic on `src_output`, which is not the
`NoOutput` error value. -/
theorem process_unbound_src_panics_not_error :
    Process.process_document Process.default [] "x".data =
      .error (.panicked EXPECT_SRC_MSG) ∧
    ProcessAbort.panicked EXPECT_SRC_MSG ≠ ProcessAbort.err Error.NoOutput := by
  exact ⟨rfl, by decide⟩

/-- C2 amended: a node sequence containing a `Source` node not preceded by any
directive binding `src_output`, processed from a state with no source
destination bound, never processes successfully: it aborts (with the
`src_output` expect panic when no other error occurs first), rather than
silently dropping the text — but by panicking, not by returning the
`NoOutput` error value. -/
theorem process_run_unbound_src_never_succeeds (st : Process) (fs : FS)
    (pre post : List Node) (s : List Char)
    (hsrc : st.src_output = none) (hpre : ∀ n ∈ pre, binds_src n = false) :
    ∃ e, Process.run st fs (pre ++ Node.Source s :: post) = .error e := by
  induction pre generalizing st fs with
  | nil =>
    refine ⟨.panicked EXPECT_SRC_MSG, ?_⟩
    simp only [List.nil_append, Process.run, Process.process, hsrc]
  | cons n pre ih =>
    cases hp : Process.process st fs n with
    | error e =>
      refine ⟨e, ?_⟩
      simp only [List.cons_append, Process.run, hp]
    | ok p =>
      obtain ⟨st1, fs1⟩ := p
      have h1 := process_ok_preserves_unbound_src hp hsrc (hpre n (by simp))
      obtain ⟨e, he⟩ := ih st1 fs1 h1 (fun m hm => hpre m (by simp [hm]))
      refine ⟨e, ?_⟩
      simp only [List.cons_append, Process.run, hp]
      exact he

/-- Witness for the amended C2 at the one-node document `[Source "x"]`. -/
theorem process_run_unbound_src_never_succeeds_witness :
    ∃ e, Process.run Process.default [] [Node.Source ['x']] = Except.error e :=
  process_run_unbound_src_never_succeeds Process.default [] [] [] ['x'] rfl (by simp)

/-- C6 counterexample: the claim states that `finish` succeeds when every
unbound destination has an empty buffer.  The default processor state has
both destinations unbound and both buffers empty, yet `finish` fails with
`NoOutput`. -/
theorem finish_fails_on_empty_unbound :
    Process.finish Process.default [] = .error (.err .NoOutput) ∧
    Process.default.src = [] ∧ Process.default.doc = [] ∧
    Process.default.src_output = none ∧ Process.default.doc_output = none := by
  exact ⟨rfl, rfl, rfl, rfl, rfl⟩

/-- C6 amended: `finish` fails with the `NoOutput` error exactly when the
source or the documentation destination is unbound, regardless of the buffer
contents; when both are bound it writes the `src` buffer then the `doc`
buffer through the handles and succeeds. -/
theorem finish_noOutput_iff_unbound (st : Process) (fs : FS) :
    (Process.finish st fs = .error (.err .NoOutput) ↔
      st.src_output = none ∨ st.doc_output = none) ∧
    (∀ f g, st.src_output = some f → st.doc_output = some g →
      Process.finish st fs = .ok (fs_append g st.doc (fs_append f st.src fs))) := by
  cases hs : st.src_output with
  | none =>
    constructor
    · simp [Process.finish, hs]
    · intro f g hf
      exact absurd hf (by simp)
  | some f0 =>
    cases hd : st.doc_output with
    | none =>
      constructor
      · simp [Process.finish, hs, hd]
      · intro f g _ hg
        exact absurd hg (by simp)
    | some g0 =>
      constructor
      · simp [Process.finish, hs, hd]
      · intro f g hf hg
        injection hf with hf
        injection hg with hg
        subst hf
        subst hg
        simp [Process.finish, hs, hd]

/-- Witness for the amended C6: with both destinations bound, `finish`
flushes both buffers to the files. -/
theorem finish_noOutput_iff_unbound_witness :
    Process.finish ⟨"S".data, "D".data, some "f".data, some "g".data⟩
        [("f".data, []), ("g".data, [])] =
      .ok [("f".data, "S".data), ("g".data, "D".data)] := by
  have h := (finish_noOutput_iff_unbound
      ⟨"S".data, "D".data, some "f".data, some "g".data⟩
      [("f".data, []), ("g".data, [])]).2 "f".data "g".data rfl rfl
  exact h.trans (by rfl)

/-- C3 counterexample: the claim states that a well-formed `key = value`
directive body with an unknown key is rejected by the directive decoder.  In
fact the derived deserializer has no `deny_unknown_fields`, so the body
`foo = "bar"` (whose key is neither `src_output` nor `doc_output`) decodes
successfully to the empty record and node building succeeds. -/
theorem directives_unknown_key_accepted :
    chunk_to_node (Lex.Chunk.Comment ⟨"foo = \"bar\"".data, Lex.CommentKind.Directive⟩) =
      .ok (Node.Directives ⟨none, none⟩) ∧
    "foo".data ≠ "src_output".data ∧ "foo".data ≠ "doc_output".data := by
  exact ⟨rfl, by decide, by decide⟩

/-- C3 amended: a well-formed `key = "value"` directive body — nonempty bare
key, value a basic string of characters TOML allows unescaped — whose key is
neither `src_output` nor `doc_output` is accepted by the directive decoder
with the unknown key ignored: node building yields a `Directives` record with
both fields absent, rather than failing with the directives-parse error.
Malformed notation (including invalid escapes, literal control characters or
an unterminated string in the value) still fails with that error. -/
theorem directives_unknown_key_ignored (k v : List Char)
    (hk0 : k ≠ []) (hk : ∀ c ∈ k, bare_key_char c = true)
    (hksrc : k ≠ "src_output".data) (hkdoc : k ≠ "doc_output".data)
    (hv : ∀ c ∈ v, basic_unescaped c = true) :
    chunk_to_node (Lex.Chunk.Comment
        ⟨k ++ ' ' :: '=' :: ' ' :: '"' :: (v ++ ['"']), Lex.CommentKind.Directive⟩) =
      .ok (Node.Directives ⟨none, none⟩) := by
  simp only [chunk_to_node]
  rw [toml_from_str_unknown_key k v hk0 hk hksrc hkdoc hv]

/-- Witness for the amended C3 at the body `foo = "bar"`. -/
theorem directives_unknown_key_ignored_witness :
    chunk_to_node (Lex.Chunk.Comment
        ⟨"foo".data ++ ' ' :: '=' :: ' ' :: '"' :: ("bar".data ++ ['"']),
         Lex.CommentKind.Directive⟩) =
      .ok (Node.Directives ⟨none, none⟩) :=
  directives_unknown_key_ignored "foo".data "bar".data (by decide) (by decide)
    (by decide) (by decide) (by decide)

/-- C8 counterexample: the claim states that two comment lines separated by a
blank line belong to two distinct blocks and are never merged into one
comment node.  In fact `%% a`, a blank line, and `%% b` lex to a single
`Documentation` node (the block separator is `pair(line_ending, multispace0)`
and `multispace0` also consumes line endings). -/
theorem blank_line_between_comments_merged :
    Lex.parse_document "%% a\n\n%% b".data =
      some [Lex.Chunk.Comment ⟨"a\nb\n".data, Lex.CommentKind.Documentation⟩] := by
  exact rfl

/-- C8 amended: a start-of-line comment block extends across any run of
whitespace after a line ending, further line endings included: two
`%%`-tagged lines separated by a blank line form one block, and being of the
same kind they merge into a single `Documentation` node.  A block is
terminated only by a line that does not begin with a comment tag after the
whitespace. -/
theorem comment_block_spans_blank_lines (t1 t2 : List Char)
    (h1 : ∀ c ∈ t1, c ≠ '\r' ∧ c ≠ '\n') (h2 : ∀ c ∈ t2, c ≠ '\r' ∧ c ≠ '\n')
    (h3 : t1.head? ≠ some '%') (h4 : t2.head? ≠ some '%') :
    ∃ t, Lex.parse_document ('%' :: '%' :: (t1 ++ '\n' :: '\n' :: '%' :: '%' :: t2)) =
      some [Lex.Chunk.Comment ⟨t, Lex.CommentKind.Documentation⟩] := by
  have hcol : Lex.collapse_comments
      [⟨t1, Lex.CommentKind.Documentation⟩, ⟨t2, Lex.CommentKind.Documentation⟩] =
      [⟨unindent ('\n' :: Lex.comment_join
          [⟨t1, Lex.CommentKind.Documentation⟩, ⟨t2, Lex.CommentKind.Documentation⟩]),
        Lex.CommentKind.Documentation⟩] := rfl
  refine ⟨unindent ('\n' :: Lex.comment_join
    [⟨t1, Lex.CommentKind.Documentation⟩, ⟨t2, Lex.CommentKind.Documentation⟩]), ?_⟩
  rw [Lex.parse_document, Lex.parse_document_greedy, Lex.fragment_two_doc t1 t2 h1 h2 h3 h4]
  dsimp only
  rw [if_pos (by simp), Lex.parse_document_greedy_nil]
  simp [hcol]

/-- Witness for the amended C8 at the input `"%% a\n\n%% b"`. -/
theorem comment_block_spans_blank_lines_witness :
    ∃ t, Lex.parse_document "%% a\n\n%% b".data =
      some [Lex.Chunk.Comment ⟨t, Lex.CommentKind.Documentation⟩] :=
  comment_block_spans_blank_lines " a".data " b".data (by decide) (by decide)
    (by decide) (by decide)

end Ezlatexdoc
